import Mathlib

/-!
Shallow embedding of the metadata extraction engine of
`src/update_gallery.py` (JPEG APP1/Exif scanner, TIFF DateTimeOriginal
decoder, XMP keyword extractor, and the orchestrator
`parse_datetime_and_keywords`).

Byte buffers are `List Nat` (each element a byte value).  Python byte
strings, slices and `int.from_bytes` are translated below; the XML
standard-library parser (`xml.etree.ElementTree.fromstring`) is external
to the repository and is modelled as an abstract parse outcome
(`Option Xml`), while everything the repository itself does with the
parsed tree is embedded exactly.
-/

/-- The Python slice `b[i:j]` for nonnegative `i`, `j` (clamping at the ends). -/
def bslice (b : List Nat) (i j : Nat) : List Nat :=
  (b.drop i).take (j - i)

/-- `int.from_bytes(l, "big")`. -/
def beBytesToNat (l : List Nat) : Nat :=
  l.foldl (fun a b => 256 * a + b) 0

/-- `int.from_bytes(l, "little")`. -/
def leBytesToNat (l : List Nat) : Nat :=
  beBytesToNat l.reverse

/-- The `endian` strings `"little"` / `"big"` passed around by the source. -/
inductive Endian where
  | little
  | big
deriving DecidableEq

/-- `int.from_bytes(l, endian)`. -/
def bytesToNat (e : Endian) (l : List Nat) : Nat :=
  match e with
  | .little => leBytesToNat l
  | .big => beBytesToNat l

/-- `_u16(b, off, endian)` = `int.from_bytes(b[off:off+2], endian)`. -/
def u16 (b : List Nat) (off : Nat) (e : Endian) : Nat :=
  bytesToNat e (bslice b off (off + 2))

/-- `_u32(b, off, endian)` = `int.from_bytes(b[off:off+4], endian)`. -/
def u32 (b : List Nat) (off : Nat) (e : Endian) : Nat :=
  bytesToNat e (bslice b off (off + 4))

/-- `int.from_bytes(jpg[i:i+2], "big")` used for JPEG segment lengths. -/
def u16be (b : List Nat) (off : Nat) : Nat :=
  beBytesToNat (bslice b off (off + 2))

/-- The bytes `b"Exif\x00\x00"`. -/
def exifMark : List Nat := [69, 120, 105, 102, 0, 0]

/-- Outcome of one iteration of the `while` loop of
`_find_exif_app1_segment`: an APP1/Exif payload was returned, the loop
broke (returning `None`), or the loop continues at a new index. -/
inductive ScanStep where
  | found (tiff : List Nat)
  | stop
  | next (i : Nat)
deriving DecidableEq

/-- One iteration of the scanning loop of `_find_exif_app1_segment`
(source lines 71–99), at loop index `i`.  The Python loop advances `i`
by 2 before reading the length; here `i` stays the value at loop entry,
so the length field sits at `i + 2` and the payload starts at `i + 4`.
The Python guard `if i + 2 > n: break` (after `i += 2`) is `i + 4 > n`
here; it is unreachable given the loop condition `i + 4 ≤ n` but is kept
faithfully. -/
def scanStep (jpg : List Nat) (i : Nat) : ScanStep :=
  let n := jpg.length
  if i + 4 ≤ n then
    if jpg.getD i 0 ≠ 0xFF then .next (i + 1)
    else
      let marker := jpg.getD (i + 1) 0
      if marker = 0xD9 ∨ marker = 0xDA then .stop
      else if i + 4 > n then .stop
      else
        let segLen := u16be jpg (i + 2)
        if segLen < 2 then .stop
        else
          let segStart := i + 4
          let segEnd := segStart + (segLen - 2)
          if segEnd > n then .stop
          else if marker = 0xE1 ∧ segEnd - segStart ≥ 6 ∧
              bslice jpg segStart (segStart + 6) = exifMark then
            .found (bslice jpg (segStart + 6) segEnd)
          else .next segEnd
  else .stop

/-- The scanning loop of `_find_exif_app1_segment`, driven by explicit
fuel (the loop index strictly increases at every iteration and the loop
runs only while `i + 4 ≤ jpg.length`, so `jpg.length` units of fuel are
enough; `scanAux_fuel_stable` below proves the result is independent of
any sufficient fuel). -/
def scanAux (jpg : List Nat) : Nat → Nat → Option (List Nat)
  | 0, _ => none
  | fuel + 1, i =>
    match scanStep jpg i with
    | .found t => some t
    | .stop => none
    | .next j => scanAux jpg fuel j

/-- `_find_exif_app1_segment(jpg)` (source lines 64–101). -/
def find_exif_app1_segment (jpg : List Nat) : Option (List Nat) :=
  if jpg.length < 4 ∨ bslice jpg 0 2 ≠ [0xFF, 0xD8] then none
  else scanAux jpg jpg.length 2

/-- One 12-byte IFD entry `(tag, typ, cnt, val_off)` as built by
`read_ifd` in the source. -/
structure IfdEntry where
  tag : Nat
  typ : Nat
  cnt : Nat
  valOff : List Nat
deriving DecidableEq

/-- The body of the `for k in range(count)` loop of `read_ifd`
(source lines 126–134): `rem` entries remain, the next one is entry
number `k`, and the loop breaks at the first entry whose 12-byte span
would exceed the payload. -/
def readEntriesFrom (tiff : List Nat) (e : Endian) (base : Nat) :
    Nat → Nat → List IfdEntry
  | _, 0 => []
  | k, rem + 1 =>
    let off := base + 12 * k
    if off + 12 > tiff.length then []
    else
      { tag := u16 tiff off e
        typ := u16 tiff (off + 2) e
        cnt := u32 tiff (off + 4) e
        valOff := bslice tiff (off + 8) (off + 12) } ::
      readEntriesFrom tiff e base (k + 1) rem

/-- `read_ifd(ifd_off)` (source lines 120–135). -/
def read_ifd (tiff : List Nat) (e : Endian) (ifdOff : Nat) : List IfdEntry :=
  if ifdOff + 2 > tiff.length then []
  else readEntriesFrom tiff e (ifdOff + 2) 0 (u16 tiff ifdOff e)

/-- The whitespace stripped by Python's `str.strip()` here: the value
was decoded as strict ASCII, and the code points below 128 for which
`str.isspace()` holds are 9–13, 28–31 and 32. -/
def isSpaceByte (c : Nat) : Bool :=
  c = 32 ∨ c = 9 ∨ c = 10 ∨ c = 13 ∨ c = 11 ∨ c = 12 ∨
  c = 28 ∨ c = 29 ∨ c = 30 ∨ c = 31

/-- `bytes.strip()` on both ends. -/
def stripBytes (l : List Nat) : List Nat :=
  ((l.dropWhile isSpaceByte).reverse.dropWhile isSpaceByte).reverse

/-- `raw.split(b"\x00", 1)[0].decode("ascii", errors="strict").strip()`,
returning `s if s else None`, with the decode failure (`except`) mapped
to `none` (source lines 158–162). -/
def decodeDatetimeValue (raw : List Nat) : Option (List Nat) :=
  let pre := raw.takeWhile (fun c => c ≠ 0)
  if pre.all (fun c => c < 128) then
    let s := stripBytes pre
    if s = [] then none else some s
  else none

/-- Resolution of the DateTimeOriginal value from its entry
(source lines 150–162): in-place when the byte count is ≤ 4, otherwise
through an endianness-aware offset that is bounds-checked against the
TIFF payload. -/
def resolveDateTimeValue (tiff : List Nat) (e : Endian) (cnt : Nat)
    (valOff : List Nat) : Option (List Nat) :=
  if cnt ≤ 4 then decodeDatetimeValue (valOff.take cnt)
  else
    let off := bytesToNat e valOff
    if off + cnt > tiff.length then none
    else decodeDatetimeValue (bslice tiff off (off + cnt))

/-- The byte-order-mark dispatch of source line 109: `"II"` is little
endian, `"MM"` big endian, anything else rejects. -/
def tiffEndianOf (tiff : List Nat) : Option Endian :=
  if bslice tiff 0 2 = [0x49, 0x49] then some .little
  else if bslice tiff 0 2 = [0x4D, 0x4D] then some .big
  else none

/-- `_extract_datetimeoriginal_from_tiff(tiff)` (source lines 104–164). -/
def extract_datetimeoriginal_from_tiff (tiff : List Nat) : Option (List Nat) :=
  if tiff.length < 8 then none
  else
    match tiffEndianOf tiff with
    | none => none
    | some endian =>
      if u16 tiff 2 endian ≠ 0x2A then none
      else
        let ifd0Off := u32 tiff 4 endian
        if ifd0Off ≥ tiff.length then none
        else
          match (read_ifd tiff endian ifd0Off).find?
              (fun en => en.tag = 0x8769) with
          | none => none
          | some en =>
            let exifIfdPtr := bytesToNat endian en.valOff
            if exifIfdPtr ≥ tiff.length then none
            else
              match (read_ifd tiff endian exifIfdPtr).find?
                  (fun en2 => en2.tag = 0x9003 ∧ en2.typ = 2 ∧ en2.cnt > 0) with
              | none => none
              | some en2 =>
                resolveDateTimeValue tiff endian en2.cnt en2.valOff

/-- The bytes `b"<x:xmpmeta"`. -/
def xmpOpen1 : List Nat := [60, 120, 58, 120, 109, 112, 109, 101, 116, 97]

/-- The bytes `b"<xmpmeta"`. -/
def xmpOpen2 : List Nat := [60, 120, 109, 112, 109, 101, 116, 97]

/-- The bytes `b"</x:xmpmeta>"`. -/
def xmpClose1 : List Nat := [60, 47, 120, 58, 120, 109, 112, 109, 101, 116, 97, 62]

/-- The bytes `b"</xmpmeta>"`. -/
def xmpClose2 : List Nat := [60, 47, 120, 109, 112, 109, 101, 116, 97, 62]

/-- `needle` occurs in `hay` at index `i`. -/
def occursAt (hay needle : List Nat) (i : Nat) : Bool :=
  bslice hay i (i + needle.length) = needle

/-- The search loop behind Python `hay.find(needle, start)`: try indices
`i, i + 1, ...` while fuel lasts, returning the first index at which
`needle` occurs. -/
def bfindAux (hay needle : List Nat) : Nat → Nat → Option Nat
  | 0, _ => none
  | fuel + 1, i =>
    if occursAt hay needle i then some i
    else bfindAux hay needle fuel (i + 1)

/-- Python `hay.find(needle, start)` (with `none` for `-1`): the least
index `i ≥ start` at which `needle` occurs in `hay`.  A non-empty
`needle` can only occur at indices `< hay.length`, so the fuel
`hay.length + 1 - start` covers every candidate index. -/
def bfind (hay needle : List Nat) (start : Nat) : Option Nat :=
  bfindAux hay needle (hay.length + 1 - start) start

/-- `_find_xmp_packet(jpg)` (source lines 170–187). -/
def find_xmp_packet (jpg : List Nat) : Option (List Nat) :=
  match (match bfind jpg xmpOpen1 0 with
         | some s => some s
         | none => bfind jpg xmpOpen2 0) with
  | none => none
  | some start =>
    match (match bfind jpg xmpClose1 start with
           | some e => some (e, xmpClose1.length)
           | none =>
             match bfind jpg xmpClose2 start with
             | some e => some (e, xmpClose2.length)
             | none => none) with
    | none => none
    | some (endPos, tagLen) => some (bslice jpg start (endPos + tagLen))

/-- An `xml.etree.ElementTree` element as far as the source consumes it:
its tag, its text (`None` when the element has no text node), and its
child elements in document order. -/
inductive Xml where
  | elem (tag : String) (text : Option String) (children : List Xml)

/-- `el.tag`. -/
def Xml.tagOf : Xml → String
  | .elem t _ _ => t

/-- `el.text`. -/
def Xml.textOf : Xml → Option String
  | .elem _ x _ => x

/-- `el`'s child elements. -/
def Xml.childrenOf : Xml → List Xml
  | .elem _ _ cs => cs

mutual

/-- `el.iter()`: the element itself followed by all of its descendants
in document order. -/
def Xml.iterList : Xml → List Xml
  | .elem t x cs => .elem t x cs :: iterChildren cs

/-- `iter()` concatenated over a list of sibling elements. -/
def iterChildren : List Xml → List Xml
  | [] => []
  | c :: cs => c.iterList ++ iterChildren cs

end

/-- `_localname(tag)` (source lines 190–191): the part of `tag` after
the first `"}"` when one is present, else `tag` itself. -/
def localname (tag : String) : String :=
  if tag.toList.contains '}' then
    String.mk ((tag.toList.dropWhile (fun c => c ≠ '}')).drop 1)
  else tag

/-- Characters stripped by Python's `str.strip()` (the code points for
which `str.isspace()` holds). -/
def isPySpace (c : Char) : Bool :=
  [9, 10, 11, 12, 13, 28, 29, 30, 31, 32, 133, 160, 5760,
   8192, 8193, 8194, 8195, 8196, 8197, 8198, 8199, 8200, 8201, 8202,
   8232, 8233, 8239, 8287, 12288].contains c.toNat

/-- Python `s.strip()` on a string. -/
def pyStrip (s : String) : String :=
  String.mk (((s.toList.dropWhile isPySpace).reverse.dropWhile isPySpace).reverse)

/-- Python `t.split("|")[-1]`: the substring after the last `"|"`
(the whole string when no `"|"` occurs; the source only uses it when
`"|" in t`). -/
def afterLastBar (t : String) : String :=
  String.mk ((t.toList.reverse.takeWhile (fun c => c ≠ '|')).reverse)

/-- The keywords one `li` element contributes inside a `subject`
element (source lines 208–211): its stripped text when the text is
truthy and strips to something non-empty. -/
def liKeyword (li : Xml) : List String :=
  match li.textOf with
  | none => []
  | some tx =>
    if tx ≠ "" then
      let t := pyStrip tx
      if t ≠ "" then [t] else []
    else []

/-- The keywords one `li` element contributes inside a
`hierarchicalSubject` element (source lines 217–224): the stripped
text, followed by the stripped final `"|"`-separated path segment when
the text contains `"|"` and that segment is non-empty. -/
def liHierKeywords (li : Xml) : List String :=
  match li.textOf with
  | none => []
  | some tx =>
    if tx ≠ "" then
      let t := pyStrip tx
      if t ≠ "" then
        t :: (if t.toList.contains '|' then
                let leaf := pyStrip (afterLastBar t)
                if leaf ≠ "" then [leaf] else []
              else [])
      else []
    else []

/-- The `dc:subject` pass of `_extract_keywords_from_xmp`
(source lines 205–211). -/
def subjKws (root : Xml) : List String :=
  (root.iterList.filter (fun el => localname el.tagOf == "subject")).flatMap
    (fun el =>
      (el.iterList.filter (fun li => localname li.tagOf == "li")).flatMap liKeyword)

/-- The `lr:hierarchicalSubject` pass of `_extract_keywords_from_xmp`
(source lines 213–224). -/
def hierKws (root : Xml) : List String :=
  (root.iterList.filter
      (fun el => localname el.tagOf == "hierarchicalSubject")).flatMap
    (fun el =>
      (el.iterList.filter (fun li => localname li.tagOf == "li")).flatMap
        liHierKeywords)

/-- The de-duplication loop of `_extract_keywords_from_xmp`
(source lines 226–233): keep the first occurrence of each keyword,
`seen` being the set of keywords already emitted. -/
def dedupeKeepFirst (seen : List String) : List String → List String
  | [] => []
  | k :: ks =>
    if k ∈ seen then dedupeKeepFirst seen ks
    else k :: dedupeKeepFirst (k :: seen) ks

/-- `_extract_keywords_from_xmp(xmp)` (source lines 194–233), taking the
outcome of the standard-library step
`ET.fromstring(xmp.decode("utf-8", errors="ignore").strip("\x00 \t\r\n"))`
as an abstract `Option Xml` (`none` when that step raises, which the
`except` clause maps to `[]`).  Everything after the parse is embedded
exactly: both tag passes run over the full document in document order,
their results are concatenated (subject results first), and the result
is de-duplicated keeping first occurrences. -/
def extract_keywords_from_xmp (parsed : Option Xml) : List String :=
  match parsed with
  | none => []
  | some root => dedupeKeepFirst [] (subjKws root ++ hierKws root)

/-- `parse_datetime_and_keywords(jpg_head)` (source lines 247–258).
`parseXml` is the abstract outcome of the standard-library XML
decode-and-parse step applied to a byte buffer (see
`extract_keywords_from_xmp`).  The Python truthiness tests `if tiff:`
and `if xmp:` are false for `None` and for empty byte strings. -/
def parse_datetime_and_keywords (parseXml : List Nat → Option Xml)
    (jpg_head : List Nat) : Option (List Nat) × List String :=
  let dto :=
    match find_exif_app1_segment jpg_head with
    | some tiff =>
      if tiff ≠ [] then extract_datetimeoriginal_from_tiff tiff else none
    | none => none
  let keywords :=
    match find_xmp_packet jpg_head with
    | some xmp => if xmp ≠ [] then extract_keywords_from_xmp (parseXml xmp) else []
    | none => []
  (dto, keywords)

/-- The APP1 scanning loop as the spec describes it, for comparison with
`scanAux`: the spec says a marker is recognized only as a `0xFF` byte
followed by a non-`0xFF`, non-fill byte, so here a `0xFF` byte followed
by another `0xFF` (a fill byte) is skipped instead of being processed as
a marker; every other step is the step the code performs. -/
def specScanAux (jpg : List Nat) : Nat → Nat → Option (List Nat)
  | 0, _ => none
  | fuel + 1, i =>
    if jpg.getD i 0 = 0xFF ∧ jpg.getD (i + 1) 0 = 0xFF ∧ i + 4 ≤ jpg.length then
      specScanAux jpg fuel (i + 1)
    else
      match scanStep jpg i with
      | .found t => some t
      | .stop => none
      | .next j => specScanAux jpg fuel j

/-- `_find_exif_app1_segment` with the spec's marker recognition
(`specScanAux`) in place of the code's scanning loop. -/
def spec_find_exif_app1_segment (jpg : List Nat) : Option (List Nat) :=
  if jpg.length < 4 ∨ bslice jpg 0 2 ≠ [0xFF, 0xD8] then none
  else specScanAux jpg jpg.length 2

/-- The spec's de-duplication rule stated in its own words: walk the
concatenated keyword list left to right and keep each keyword the first
time it is seen, preserving relative order. -/
def specFirstOccurrenceDedup (l : List String) : List String :=
  l.foldl (fun acc x => if x ∈ acc then acc else acc ++ [x]) []

/-- The two bytes of `v` (a 16-bit value) in the given byte order. -/
def u16bytes (e : Endian) (v : Nat) : List Nat :=
  match e with
  | .little => [v % 256, v / 256 % 256]
  | .big => [v / 256 % 256, v % 256]

/-- The four bytes of `v` (a 32-bit value) in the given byte order. -/
def u32bytes (e : Endian) (v : Nat) : List Nat :=
  match e with
  | .little => [v % 256, v / 256 % 256, v / 65536 % 256, v / 16777216 % 256]
  | .big => [v / 16777216 % 256, v / 65536 % 256, v / 256 % 256, v % 256]

/-- `"II"` / `"MM"`. -/
def endianMarkBytes : Endian → List Nat
  | .little => [0x49, 0x49]
  | .big => [0x4D, 0x4D]

/-- The ASCII bytes of `"2026:01:09 14:32:10"`. -/
def dtBytes : List Nat :=
  [50, 48, 50, 54, 58, 48, 49, 58, 48, 57, 32, 49, 52, 58, 51, 50, 58, 49, 48]

/-- A well-formed 56-byte TIFF payload in byte order `e`: header with
IFD0 at offset 8, IFD0 holding one entry (tag `0x8769` pointing at
offset 22), the Exif IFD at 22 holding one entry (tag `0x9003`, ASCII
type 2, count 20, value at offset 36), and the 20 value bytes
`"2026:01:09 14:32:10\x00"` at 36. -/
def mkTiffDT (e : Endian) : List Nat :=
  endianMarkBytes e ++ u16bytes e 0x2A ++ u32bytes e 8 ++
  u16bytes e 1 ++
  (u16bytes e 0x8769 ++ u16bytes e 4 ++ u32bytes e 1 ++ u32bytes e 22) ++
  u16bytes e 1 ++
  (u16bytes e 0x9003 ++ u16bytes e 2 ++ u32bytes e 20 ++ u32bytes e 36) ++
  (dtBytes ++ [0])

/-- A 68-byte JPEG prefix: SOI, then one APP1 segment of declared
length 64 whose payload is `"Exif\x00\x00"` followed by `mkTiffDT e`. -/
def mkJpegDT (e : Endian) : List Nat :=
  [0xFF, 0xD8, 0xFF, 0xE1, 0, 64] ++ exifMark ++ mkTiffDT e

/-- The XML-parse outcome of a buffer whose XMP envelope does not hold a
well-formed XML document: `ET.fromstring` raises, i.e. `none`. -/
def parseNone : List Nat → Option Xml := fun _ => none

/-- The bytes of `"<xmpmeta><subject><li>Moon</li></subject></xmpmeta>"`. -/
def c1buf : List Nat :=
  [60, 120, 109, 112, 109, 101, 116, 97, 62, 60, 115, 117, 98, 106, 101,
   99, 116, 62, 60, 108, 105, 62, 77, 111, 111, 110, 60, 47, 108, 105, 62,
   60, 47, 115, 117, 98, 106, 101, 99, 116, 62, 60, 47, 120, 109, 112, 109,
   101, 116, 97, 62]

/-- The element tree `ET.fromstring` produces for `c1buf`. -/
def c1tree : Xml :=
  .elem "xmpmeta" none [.elem "subject" none [.elem "li" (some "Moon") []]]

/-- The XML-parse outcome for `c1buf`. -/
def c1parse : List Nat → Option Xml := fun _ => some c1tree

/-- An 18-byte buffer: SOI, then a `0xFF` fill byte, then a well-formed
APP1/Exif segment (`FF E1`, length 12, `"Exif\x00\x00"`, 4 TIFF bytes).
A scanner that skips fill bytes finds the APP1 segment; the code instead
reads the fill byte pair `FF FF` as a marker with length field
`0xFFE1` and stops on the failed bounds check. -/
def c2buf : List Nat :=
  [0xFF, 0xD8, 0xFF, 0xFF, 0xFF, 0xE1, 0x00, 0x0C] ++ exifMark ++
  [0x49, 0x49, 0x2A, 0x00]

/-- SOI, then a marker `0xFE` whose length field is 1 (less than 2),
followed by a well-formed APP1/Exif segment carrying `mkTiffDT`. -/
def c10buf : List Nat :=
  [0xFF, 0xD8, 0xFF, 0xFE, 0x00, 0x01] ++
  ([0xFF, 0xE1, 0, 64] ++ exifMark ++ mkTiffDT .little)

/-- The bytes of `"<xmpmeta!</xmpmeta>"`: an XMP envelope whose content
is not a well-formed XML document. -/
def c9xmp : List Nat := xmpOpen2 ++ [33] ++ xmpClose2

/-- A valid Exif-carrying JPEG prefix followed by a malformed XMP
envelope. -/
def c9buf : List Nat := mkJpegDT .little ++ c9xmp

/-- An element tree with a `subject` bag holding the keywords
`"Artemis"`, `"Orion"`, `"Artemis"` (one duplicate). -/
def c6tree : Xml :=
  .elem "xmpmeta" none
    [.elem "subject" none
      [.elem "li" (some "Artemis") [], .elem "li" (some "Orion") [],
       .elem "li" (some "Artemis") []]]

/-- An element tree with one `hierarchicalSubject` entry holding the
taxonomy path `"Program|Artemis II"`. -/
def c7tree : Xml :=
  .elem "hierarchicalSubject" none
    [.elem "li" (some "Program|Artemis II") []]

lemma scanStep_stop_of_len {jpg : List Nat} {i : Nat} (h : jpg.length < i + 4) :
    scanStep jpg i = .stop := by
  unfold scanStep
  rw [if_neg (by omega)]

lemma scanStep_next_gt {jpg : List Nat} {i j : Nat}
    (h : scanStep jpg i = .next j) : i < j := by
  simp only [scanStep] at h
  split_ifs at h <;> injection h with h' <;> omega

lemma scanAux_fuel_succ {jpg : List Nat} :
    ∀ {fuel i : Nat}, jpg.length ≤ fuel + i →
      scanAux jpg (fuel + 1) i = scanAux jpg fuel i := by
  intro fuel
  induction fuel with
  | zero =>
    intro i h
    have hstep : scanStep jpg i = .stop := scanStep_stop_of_len (by omega)
    simp [scanAux, hstep]
  | succ fuel ih =>
    intro i h
    cases hstep : scanStep jpg i with
    | found t => simp [scanAux, hstep]
    | stop => simp [scanAux, hstep]
    | next j =>
      have hj : i < j := scanStep_next_gt hstep
      have : scanAux jpg (fuel + 1 + 1) i = scanAux jpg (fuel + 1) j := by
        simp [scanAux, hstep]
      rw [this, ih (by omega)]
      simp [scanAux, hstep]

lemma scanAux_fuel_stable {jpg : List Nat} {f₁ f₂ i : Nat}
    (h₁ : jpg.length ≤ f₁ + i) (h₂ : f₁ ≤ f₂) :
    scanAux jpg f₂ i = scanAux jpg f₁ i := by
  induction f₂, h₂ using Nat.le_induction with
  | base => rfl
  | succ f₂ hle ih => rw [scanAux_fuel_succ (by omega), ih]

lemma scanStep_eoi_sos {jpg : List Nat} {i : Nat}
    (h1 : i + 4 ≤ jpg.length) (h2 : jpg.getD i 0 = 0xFF)
    (h3 : jpg.getD (i + 1) 0 = 0xD9 ∨ jpg.getD (i + 1) 0 = 0xDA) :
    scanStep jpg i = .stop := by
  unfold scanStep
  rw [if_pos h1, if_neg (not_not_intro h2), if_pos h3]

lemma scanStep_short_len {jpg : List Nat} {i : Nat}
    (h1 : i + 4 ≤ jpg.length) (h2 : jpg.getD i 0 = 0xFF)
    (h3 : ¬(jpg.getD (i + 1) 0 = 0xD9 ∨ jpg.getD (i + 1) 0 = 0xDA))
    (h4 : u16be jpg (i + 2) < 2) :
    scanStep jpg i = .stop := by
  unfold scanStep
  rw [if_pos h1, if_neg (not_not_intro h2), if_neg h3, if_neg (by omega), if_pos h4]

/-- C2 (amended): in the APP1 scan a `0xFF` byte is taken together with
whatever byte follows it as a marker — a second `0xFF` (fill byte) is
not skipped but processed as marker `0xFF` with the following bytes as
its length field (shown on `c2buf`, where this makes the scan stop and
the locator return absent although a fill-skipping scan would find the
APP1 segment); and whenever the byte after a recognized `0xFF` is the
end-of-image (`0xD9`) or start-of-scan (`0xDA`) marker, the scan
terminates early and yields absent, not an error. -/
theorem C2_scan_markers :
    (∀ (jpg : List Nat) (i fuel : Nat), i + 4 ≤ jpg.length →
      jpg.getD i 0 = 0xFF →
      (jpg.getD (i + 1) 0 = 0xD9 ∨ jpg.getD (i + 1) 0 = 0xDA) →
      scanAux jpg (fuel + 1) i = none) ∧
    scanStep c2buf 2 = .stop ∧
    find_exif_app1_segment c2buf = none := by
  refine ⟨?_, by decide, by decide⟩
  intro jpg i fuel h1 h2 h3
  simp [scanAux, scanStep_eoi_sos h1 h2 h3]

/-- Witness for C2: on the buffer `FF D8 FF D9 00 00` (EOI right after
SOI) the scan returns absent. -/
theorem C2_scan_markers_witness :
    scanAux [0xFF, 0xD8, 0xFF, 0xD9, 0, 0] 4 2 = none :=
  C2_scan_markers.1 [0xFF, 0xD8, 0xFF, 0xD9, 0, 0] 2 3 (by decide) (by decide)
    (Or.inl (by decide))

/-- Counterexample to C2 as stated: on `c2buf` the code does not
recognize markers only as `0xFF` followed by a non-`0xFF`, non-fill
byte — it treats the fill pair `FF FF` as a marker with a length field
and returns absent, while the scanner that recognizes markers the way
the spec says (skipping fill bytes) finds the APP1/Exif segment. -/
theorem C2_counterexample :
    find_exif_app1_segment c2buf = none ∧
    spec_find_exif_app1_segment c2buf = some [0x49, 0x49, 0x2A, 0x00] ∧
    find_exif_app1_segment c2buf ≠ spec_find_exif_app1_segment c2buf := by
  exact ⟨by decide, by decide, by decide⟩

/-- C10: when the scan recognizes a marker other than EOI/SOS whose
two-byte big-endian length field is less than 2, it stops immediately
and yields absent, for every buffer — even one in which a well-formed
Exif APP1 segment occurs later, as on `c10buf`, whose tail after the
degenerate marker is a well-formed APP1/Exif segment (it parses when
scanned on its own behind a bare SOI). -/
theorem C10_short_length_field :
    (∀ (jpg : List Nat) (i fuel : Nat), i + 4 ≤ jpg.length →
      jpg.getD i 0 = 0xFF →
      ¬(jpg.getD (i + 1) 0 = 0xD9 ∨ jpg.getD (i + 1) 0 = 0xDA) →
      u16be jpg (i + 2) < 2 →
      scanAux jpg (fuel + 1) i = none) ∧
    find_exif_app1_segment c10buf = none ∧
    find_exif_app1_segment ([0xFF, 0xD8] ++ bslice c10buf 6 c10buf.length) =
      some (mkTiffDT .little) := by
  refine ⟨?_, by decide, by decide⟩
  intro jpg i fuel h1 h2 h3 h4
  simp [scanAux, scanStep_short_len h1 h2 h3 h4]

/-- Witness for C10: on `c10buf` (marker `0xFE` with length field 1 at
offset 2) the scan from offset 2 returns absent. -/
theorem C10_short_length_field_witness :
    scanAux c10buf 21 2 = none :=
  C10_short_length_field.1 c10buf 2 20 (by decide) (by decide) (by decide)
    (by decide)

lemma occursAt_length {hay nd : List Nat} {i : Nat} (hnd : nd ≠ [])
    (h : occursAt hay nd i = true) : i + nd.length ≤ hay.length := by
  have h' : bslice hay i (i + nd.length) = nd := by
    simpa [occursAt] using h
  have hlen := congrArg List.length h'
  simp [bslice] at hlen
  have hpos : 0 < nd.length := List.length_pos.2 hnd
  omega

lemma bfindAux_some {hay nd : List Nat} :
    ∀ {fuel i j : Nat}, bfindAux hay nd fuel i = some j →
      i ≤ j ∧ occursAt hay nd j = true ∧
        ∀ k, i ≤ k → k < j → occursAt hay nd k = false := by
  intro fuel
  induction fuel with
  | zero => intro i j h; simp [bfindAux] at h
  | succ fuel ih =>
    intro i j h
    by_cases hocc : occursAt hay nd i
    · rw [bfindAux, if_pos hocc] at h
      obtain rfl : i = j := by simpa using h
      exact ⟨le_refl i, hocc, fun k hk1 hk2 => absurd hk1 (by omega)⟩
    · rw [bfindAux, if_neg hocc] at h
      obtain ⟨h1, h2, h3⟩ := ih h
      refine ⟨by omega, h2, fun k hk1 hk2 => ?_⟩
      rcases Nat.eq_or_lt_of_le hk1 with rfl | hlt
      · exact Bool.not_eq_true _ ▸ eq_false_of_ne_true hocc
      · exact h3 k (by omega) hk2

lemma bfindAux_none {hay nd : List Nat} :
    ∀ {fuel i : Nat}, bfindAux hay nd fuel i = none →
      ∀ k, i ≤ k → k < i + fuel → occursAt hay nd k = false := by
  intro fuel
  induction fuel with
  | zero => intro i _ k hk1 hk2; omega
  | succ fuel ih =>
    intro i h k hk1 hk2
    by_cases hocc : occursAt hay nd i
    · rw [bfindAux, if_pos hocc] at h; cases h
    · rw [bfindAux, if_neg hocc] at h
      rcases Nat.eq_or_lt_of_le hk1 with rfl | hlt
      · exact eq_false_of_ne_true hocc
      · exact ih h k (by omega) (by omega)

lemma bfind_some {hay nd : List Nat} {s j : Nat} (h : bfind hay nd s = some j) :
    s ≤ j ∧ occursAt hay nd j = true ∧
      ∀ k, s ≤ k → k < j → occursAt hay nd k = false :=
  bfindAux_some h

lemma bfind_none {hay nd : List Nat} {s : Nat} (hnd : nd ≠ [])
    (h : bfind hay nd s = none) :
    ∀ k, s ≤ k → occursAt hay nd k = false := by
  intro k hk
  by_cases hkl : k < s + (hay.length + 1 - s)
  · exact bfindAux_none h k hk hkl
  · cases hocc : occursAt hay nd k with
    | false => rfl
    | true =>
      have h1 := occursAt_length hnd hocc
      have h2 : 0 < nd.length := List.length_pos.2 hnd
      omega

lemma parseDK_fst (parseXml : List Nat → Option Xml) (jpg : List Nat) :
    (parse_datetime_and_keywords parseXml jpg).1 =
      (match find_exif_app1_segment jpg with
       | some tiff =>
         if tiff ≠ [] then extract_datetimeoriginal_from_tiff tiff else none
       | none => none) := rfl

lemma parseDK_snd (parseXml : List Nat → Option Xml) (jpg : List Nat) :
    (parse_datetime_and_keywords parseXml jpg).2 =
      (match find_xmp_packet jpg with
       | some xmp =>
         if xmp ≠ [] then extract_keywords_from_xmp (parseXml xmp) else []
       | none => []) := rfl

lemma decodeDatetimeValue_ne_nil {raw s : List Nat}
    (h : decodeDatetimeValue raw = some s) : s ≠ [] := by
  unfold decodeDatetimeValue at h
  dsimp only at h
  split_ifs at h
  simp_all

lemma resolveDateTimeValue_ne_nil {tiff : List Nat} {e : Endian}
    {cnt : Nat} {v s : List Nat}
    (h : resolveDateTimeValue tiff e cnt v = some s) : s ≠ [] := by
  unfold resolveDateTimeValue at h
  dsimp only at h
  split_ifs at h <;> first | cases h | exact decodeDatetimeValue_ne_nil h

lemma extract_datetimeoriginal_ne_nil {tiff s : List Nat}
    (h : extract_datetimeoriginal_from_tiff tiff = some s) : s ≠ [] := by
  unfold extract_datetimeoriginal_from_tiff at h
  dsimp only at h
  repeat' split at h
  all_goals first | cases h | exact resolveDateTimeValue_ne_nil h

lemma bfind_none_of_short {hay nd : List Nat} {s : Nat}
    (h : hay.length < nd.length) : bfind hay nd s = none := by
  cases hb : bfind hay nd s with
  | none => rfl
  | some j =>
    have hnd : nd ≠ [] := List.length_pos.1 (by omega)
    have := occursAt_length hnd (bfind_some hb).2.1
    omega

lemma find_xmp_packet_short {jpg : List Nat} (h : jpg.length < 8) :
    find_xmp_packet jpg = none := by
  have h1 : bfind jpg xmpOpen1 0 = none :=
    bfind_none_of_short (by simp [xmpOpen1]; omega)
  have h2 : bfind jpg xmpOpen2 0 = none :=
    bfind_none_of_short (by simp [xmpOpen2]; omega)
  unfold find_xmp_packet
  rw [h1, h2]

/-- C4: the extraction entry point is total and absorbs every internal
failure: the scanning loop's result is independent of its fuel whenever
the fuel covers the buffer (so the embedding's fuel is not an artifact
and the loop always terminates with a value), the empty buffer yields
`(none, [])` without fault, and a date is only ever surfaced as `none`
or as a non-empty string. -/
theorem C4_never_faults (parseXml : List Nat → Option Xml) (jpg : List Nat)
    (fuel : Nat) (hfuel : jpg.length ≤ fuel + 2) :
    scanAux jpg fuel 2 = scanAux jpg jpg.length 2 ∧
    parse_datetime_and_keywords parseXml [] = (none, []) ∧
    ∀ d, (parse_datetime_and_keywords parseXml jpg).1 = some d → d ≠ [] := by
  refine ⟨?_, rfl, ?_⟩
  · rcases le_total fuel jpg.length with hle | hle
    · exact (scanAux_fuel_stable hfuel hle).symm
    · exact scanAux_fuel_stable (by omega) hle
  · intro d hd
    rw [parseDK_fst] at hd
    rcases hfe : find_exif_app1_segment jpg with _ | tiff <;> rw [hfe] at hd
    · cases hd
    · dsimp only at hd
      split_ifs at hd with ht
      exact extract_datetimeoriginal_ne_nil hd

/-- Witness for C4 at the empty buffer with zero fuel. -/
theorem C4_never_faults_witness :
    parse_datetime_and_keywords parseNone [] = (none, []) :=
  (C4_never_faults parseNone [] 0 (by decide)).2.1

/-- C1 (amended): for a buffer shorter than 4 bytes or not starting with
the SOI marker, the APP1 locator returns absent and the extracted date
is absent; when the buffer is shorter than 4 bytes the whole result is
`(none, [])`.  (The XMP locator is a raw substring search independent of
the SOI check, so a non-JPEG buffer can still yield keywords; see the
counterexample.) -/
theorem C1_short_or_nonsoi (parseXml : List Nat → Option Xml)
    (jpg : List Nat)
    (h : jpg.length < 4 ∨ bslice jpg 0 2 ≠ [0xFF, 0xD8]) :
    find_exif_app1_segment jpg = none ∧
    (parse_datetime_and_keywords parseXml jpg).1 = none ∧
    (jpg.length < 4 → parse_datetime_and_keywords parseXml jpg = (none, [])) := by
  have hfe : find_exif_app1_segment jpg = none := by
    unfold find_exif_app1_segment
    rw [if_pos h]
  refine ⟨hfe, ?_, ?_⟩
  · rw [parseDK_fst, hfe]
  · intro h4
    have hx : find_xmp_packet jpg = none := find_xmp_packet_short (by omega)
    refine Prod.ext ?_ ?_
    · rw [parseDK_fst, hfe]
    · rw [parseDK_snd, hx]

/-- Witness for C1 at a 1-byte buffer. -/
theorem C1_short_or_nonsoi_witness :
    parse_datetime_and_keywords parseNone [0] = (none, []) :=
  (C1_short_or_nonsoi parseNone [0] (Or.inl (by decide))).2.2 (by decide)

/-- Counterexample to C1 as stated: `c1buf` does not start with the SOI
marker, yet the XMP locator finds a packet in it and the extraction
entry point returns the keyword `"Moon"` rather than an empty list. -/
theorem C1_counterexample :
    bslice c1buf 0 2 ≠ [0xFF, 0xD8] ∧
    find_xmp_packet c1buf ≠ none ∧
    (parse_datetime_and_keywords c1parse c1buf).2 = ["Moon"] := by
  exact ⟨by decide, by decide, rfl⟩

/-- C3: the synthetic TIFF directory encoding `"2026:01:09 14:32:10"`
decodes to exactly that ASCII string (with the trailing NUL stripped) in
both byte orders, and wrapped in a JPEG APP1/Exif segment the extraction
entry point returns that date for both byte orders. -/
theorem C3_datetime_both_endians :
    ∀ e : Endian,
      extract_datetimeoriginal_from_tiff (mkTiffDT e) = some dtBytes ∧
      ∀ parseXml : List Nat → Option Xml,
        parse_datetime_and_keywords parseXml (mkJpegDT e) = (some dtBytes, []) := by
  intro e
  cases e
  · exact ⟨by decide, fun _ => rfl⟩
  · exact ⟨by decide, fun _ => rfl⟩

/-- C5: when the header checks pass and both directory lookups succeed
(the hypotheses name the chain of intermediate values the code
computes), the DateTimeOriginal entry's value is resolved per the
in-place/offset rule: a byte count ≤ 4 takes the value from the entry's
4-byte `valueOrOffset` field itself, a larger byte count reads
`valueOrOffset` as an endianness-aware offset, and whenever that offset
plus the byte count exceeds the TIFF payload length the date is
absent. -/
theorem C5_value_resolution (tiff : List Nat) (endian : Endian)
    (e1 e2 : IfdEntry)
    (h1 : ¬tiff.length < 8)
    (h2 : tiffEndianOf tiff = some endian)
    (h3 : u16 tiff 2 endian = 0x2A)
    (h4 : u32 tiff 4 endian < tiff.length)
    (h5 : (read_ifd tiff endian (u32 tiff 4 endian)).find?
        (fun en => en.tag = 0x8769) = some e1)
    (h6 : bytesToNat endian e1.valOff < tiff.length)
    (h7 : (read_ifd tiff endian (bytesToNat endian e1.valOff)).find?
        (fun en2 => en2.tag = 0x9003 ∧ en2.typ = 2 ∧ en2.cnt > 0) = some e2) :
    extract_datetimeoriginal_from_tiff tiff =
      resolveDateTimeValue tiff endian e2.cnt e2.valOff ∧
    (e2.cnt ≤ 4 →
      extract_datetimeoriginal_from_tiff tiff =
        decodeDatetimeValue (e2.valOff.take e2.cnt)) ∧
    (4 < e2.cnt → tiff.length < bytesToNat endian e2.valOff + e2.cnt →
      extract_datetimeoriginal_from_tiff tiff = none) := by
  have hmain : extract_datetimeoriginal_from_tiff tiff =
      resolveDateTimeValue tiff endian e2.cnt e2.valOff := by
    unfold extract_datetimeoriginal_from_tiff
    rw [if_neg h1, h2]
    dsimp only
    rw [if_neg (not_not_intro h3), if_neg (not_le.mpr h4), h5]
    dsimp only
    rw [if_neg (not_le.mpr h6), h7]
  refine ⟨hmain, ?_, ?_⟩
  · intro hle
    rw [hmain]
    unfold resolveDateTimeValue
    rw [if_pos hle]
  · intro hgt hoob
    rw [hmain]
    unfold resolveDateTimeValue
    rw [if_neg (by omega)]
    dsimp only
    rw [if_pos (by omega)]

/-- Witness for C5 on the little-endian synthetic TIFF payload, whose
DateTimeOriginal entry has count 20 and value offset 36. -/
theorem C5_value_resolution_witness :
    extract_datetimeoriginal_from_tiff (mkTiffDT .little) =
      resolveDateTimeValue (mkTiffDT .little) .little 20 [36, 0, 0, 0] :=
  (C5_value_resolution (mkTiffDT .little) .little
    ⟨0x8769, 4, 1, [22, 0, 0, 0]⟩ ⟨0x9003, 2, 20, [36, 0, 0, 0]⟩
    (by decide) (by decide) (by decide) (by decide) (by decide) (by decide)
    (by decide)).1

lemma dedupeKeepFirst_mem (seen l : List String) (s : String) :
    s ∈ dedupeKeepFirst seen l ↔ s ∈ l ∧ s ∉ seen := by
  induction l generalizing seen with
  | nil => simp [dedupeKeepFirst]
  | cons k ks ih =>
    by_cases hk : k ∈ seen
    · rw [dedupeKeepFirst, if_pos hk, ih]
      constructor
      · rintro ⟨h1, h2⟩
        exact ⟨List.mem_cons_of_mem _ h1, h2⟩
      · rintro ⟨h1, h2⟩
        rcases List.mem_cons.1 h1 with rfl | h1
        · exact absurd hk h2
        · exact ⟨h1, h2⟩
    · rw [dedupeKeepFirst, if_neg hk]
      simp only [List.mem_cons, ih]
      constructor
      · rintro (rfl | ⟨h1, h2⟩)
        · exact ⟨Or.inl rfl, hk⟩
        · exact ⟨Or.inr h1, fun hs => h2 (Or.inr hs)⟩
      · rintro ⟨rfl | h1, h2⟩
        · exact Or.inl rfl
        · by_cases hsk : s = k
          · exact Or.inl hsk
          · exact Or.inr ⟨h1, fun hs => hs.elim hsk h2⟩

lemma dedupeKeepFirst_sublist (seen l : List String) :
    (dedupeKeepFirst seen l).Sublist l := by
  induction l generalizing seen with
  | nil => simp [dedupeKeepFirst]
  | cons k ks ih =>
    by_cases hk : k ∈ seen
    · rw [dedupeKeepFirst, if_pos hk]
      exact (ih seen).cons k
    · rw [dedupeKeepFirst, if_neg hk]
      exact (ih (k :: seen)).cons₂ k

lemma dedupeKeepFirst_nodup (seen l : List String) :
    (dedupeKeepFirst seen l).Nodup := by
  induction l generalizing seen with
  | nil => simp [dedupeKeepFirst]
  | cons k ks ih =>
    by_cases hk : k ∈ seen
    · rw [dedupeKeepFirst, if_pos hk]
      exact ih seen
    · rw [dedupeKeepFirst, if_neg hk]
      refine List.nodup_cons.2 ⟨?_, ih (k :: seen)⟩
      intro hmem
      exact ((dedupeKeepFirst_mem _ _ _).1 hmem).2 (List.mem_cons_self k seen)

lemma dedupeKeepFirst_congr (seen₁ seen₂ : List String) (l : List String)
    (h : ∀ x, x ∈ seen₁ ↔ x ∈ seen₂) :
    dedupeKeepFirst seen₁ l = dedupeKeepFirst seen₂ l := by
  induction l generalizing seen₁ seen₂ with
  | nil => rfl
  | cons k ks ih =>
    by_cases hk : k ∈ seen₁
    · rw [dedupeKeepFirst, if_pos hk, dedupeKeepFirst, if_pos ((h k).1 hk),
        ih _ _ h]
    · rw [dedupeKeepFirst, if_neg hk, dedupeKeepFirst,
        if_neg (fun hx => hk ((h k).2 hx))]
      congr 1
      refine ih _ _ ?_
      intro x
      simp [List.mem_cons, h x]

lemma specDedup_go (l : List String) :
    ∀ acc : List String,
      l.foldl (fun acc x => if x ∈ acc then acc else acc ++ [x]) acc =
        acc ++ dedupeKeepFirst acc l := by
  induction l with
  | nil => intro acc; simp [dedupeKeepFirst]
  | cons k ks ih =>
    intro acc
    by_cases hk : k ∈ acc
    · rw [List.foldl_cons]
      simp only [if_pos hk]
      rw [ih acc, dedupeKeepFirst, if_pos hk]
    · rw [List.foldl_cons]
      simp only [if_neg hk]
      rw [ih (acc ++ [k]), dedupeKeepFirst, if_neg hk,
        dedupeKeepFirst_congr (acc ++ [k]) (k :: acc) ks
          (fun x => by simp [List.mem_append, List.mem_cons, or_comm])]
      simp

lemma specFirstOccurrenceDedup_eq (l : List String) :
    specFirstOccurrenceDedup l = dedupeKeepFirst [] l := by
  unfold specFirstOccurrenceDedup
  simpa using specDedup_go l []

lemma dedupeKeepFirst_indexOf_lt (seen l : List String) (x y : String)
    (hne : x ≠ y) (hxs : x ∉ seen) (hys : y ∉ seen)
    (hx : x ∈ l) (hy : y ∈ l)
    (hlt : l.indexOf x < l.indexOf y) :
    (dedupeKeepFirst seen l).indexOf x < (dedupeKeepFirst seen l).indexOf y := by
  induction l generalizing seen with
  | nil => cases hx
  | cons k ks ih =>
    by_cases hk : k ∈ seen
    · rw [dedupeKeepFirst, if_pos hk]
      have hkx : k ≠ x := fun h => hxs (h ▸ hk)
      have hky : k ≠ y := fun h => hys (h ▸ hk)
      have hx' : x ∈ ks := (List.mem_cons.1 hx).resolve_left fun h => hkx h.symm
      have hy' : y ∈ ks := (List.mem_cons.1 hy).resolve_left fun h => hky h.symm
      have hlt' : ks.indexOf x < ks.indexOf y := by
        rw [List.indexOf_cons_ne _ hkx, List.indexOf_cons_ne _ hky] at hlt
        omega
      exact ih seen hxs hys hx' hy' hlt'
    · rw [dedupeKeepFirst, if_neg hk]
      by_cases hkx : k = x
      · subst hkx
        rw [List.indexOf_cons_self, List.indexOf_cons_ne _ hne]
        omega
      · by_cases hky : k = y
        · subst hky
          rw [List.indexOf_cons_self] at hlt
          omega
        · have hx' : x ∈ ks :=
            (List.mem_cons.1 hx).resolve_left fun h => hkx h.symm
          have hy' : y ∈ ks :=
            (List.mem_cons.1 hy).resolve_left fun h => hky h.symm
          have hlt' : ks.indexOf x < ks.indexOf y := by
            rw [List.indexOf_cons_ne _ hkx, List.indexOf_cons_ne _ hky] at hlt
            omega
          have hxs' : x ∉ k :: seen :=
            fun h => (List.mem_cons.1 h).elim (fun h' => hkx h'.symm) hxs
          have hys' : y ∉ k :: seen :=
            fun h => (List.mem_cons.1 h).elim (fun h' => hky h'.symm) hys
          rw [List.indexOf_cons_ne _ hkx, List.indexOf_cons_ne _ hky]
          exact Nat.succ_lt_succ (ih (k :: seen) hxs' hys' hx' hy' hlt')

lemma dropWhile_dropWhile {α : Type} (p : α → Bool) (l : List α) :
    (l.dropWhile p).dropWhile p = l.dropWhile p := by
  induction l with
  | nil => rfl
  | cons a l ih =>
    by_cases hp : p a
    · simp [List.dropWhile_cons, hp, ih]
    · simp [List.dropWhile_cons, hp]

lemma dropWhile_rev_trim {α : Type} (p : α → Bool) (m : List α)
    (hm : m.dropWhile p = m) :
    ((m.reverse.dropWhile p).reverse).dropWhile p =
      (m.reverse.dropWhile p).reverse := by
  cases hr : (m.reverse.dropWhile p).reverse with
  | nil => rfl
  | cons x r' =>
    have hm2 : m = (x :: r') ++ (m.reverse.takeWhile p).reverse := by
      calc m = m.reverse.reverse := (List.reverse_reverse m).symm
        _ = (m.reverse.takeWhile p ++ m.reverse.dropWhile p).reverse := by
            rw [List.takeWhile_append_dropWhile]
        _ = (m.reverse.dropWhile p).reverse ++
              (m.reverse.takeWhile p).reverse := by
            rw [List.reverse_append]
        _ = (x :: r') ++ (m.reverse.takeWhile p).reverse := by rw [hr]
    have hpx : ¬p x := by
      intro hpx
      have hdm := hm
      rw [hm2] at hdm
      rw [List.cons_append, List.dropWhile_cons, if_pos hpx] at hdm
      have hlen := congrArg List.length hdm
      have hle := (@List.dropWhile_sublist _
        (r' ++ (m.reverse.takeWhile p).reverse) p).length_le
      simp only [List.length_cons, List.length_append] at hlen
      simp only [List.length_append] at hle
      omega
    rw [List.dropWhile_cons, if_neg hpx]

lemma trim_idem {α : Type} (p : α → Bool) (l : List α) :
    (((((l.dropWhile p).reverse.dropWhile p).reverse.dropWhile p).reverse.dropWhile
        p).reverse) =
      ((l.dropWhile p).reverse.dropWhile p).reverse := by
  have hA : (l.dropWhile p).dropWhile p = l.dropWhile p := dropWhile_dropWhile p l
  rw [dropWhile_rev_trim p (l.dropWhile p) hA, List.reverse_reverse,
    dropWhile_dropWhile p (l.dropWhile p).reverse]

lemma pyStrip_idem (s : String) : pyStrip (pyStrip s) = pyStrip s := by
  show String.mk
      (((((s.toList.dropWhile isPySpace).reverse.dropWhile
            isPySpace).reverse.dropWhile
          isPySpace).reverse.dropWhile isPySpace).reverse) =
    String.mk ((s.toList.dropWhile isPySpace).reverse.dropWhile isPySpace).reverse
  exact congrArg String.mk (trim_idem isPySpace s.toList)

lemma mem_pyStrip {c : Char} {s : String} (h : c ∈ (pyStrip s).toList) :
    c ∈ s.toList := by
  have h' : c ∈ (s.toList.dropWhile isPySpace).reverse.dropWhile isPySpace := by
    rw [← List.mem_reverse]
    exact h
  have h2 : c ∈ (s.toList.dropWhile isPySpace).reverse :=
    List.Sublist.mem h' (List.dropWhile_sublist isPySpace)
  rw [List.mem_reverse] at h2
  exact List.Sublist.mem h2 (List.dropWhile_sublist isPySpace)

lemma afterLastBar_no_bar {t : String} {c : Char}
    (h : c ∈ (afterLastBar t).toList) : ¬c = '|' := by
  have h' : c ∈ t.toList.reverse.takeWhile (fun c => c ≠ '|') := by
    rw [← List.mem_reverse]
    exact h
  have := List.mem_takeWhile_imp h'
  simpa using this

lemma liKeyword_shape {li : Xml} {s : String} (h : s ∈ liKeyword li) :
    ∃ tx, li.textOf = some tx ∧ s = pyStrip tx ∧ s ≠ "" := by
  unfold liKeyword at h
  cases htx : li.textOf with
  | none => rw [htx] at h; cases h
  | some tx =>
    rw [htx] at h
    dsimp only at h
    split_ifs at h with h1 h2
    · rcases List.mem_singleton.1 h with rfl
      exact ⟨tx, rfl, rfl, h2⟩
    · cases h
    · cases h

lemma liHierKeywords_shape {li : Xml} {s : String}
    (h : s ∈ liHierKeywords li) :
    ∃ tx, li.textOf = some tx ∧
      (s = pyStrip tx ∨ s = pyStrip (afterLastBar (pyStrip tx))) ∧ s ≠ "" := by
  unfold liHierKeywords at h
  cases htx : li.textOf with
  | none => rw [htx] at h; cases h
  | some tx =>
    rw [htx] at h
    dsimp only at h
    split_ifs at h with h1 h2 h3 h4
    · rcases List.mem_cons.1 h with rfl | h
      · exact ⟨tx, rfl, Or.inl rfl, h2⟩
      · rcases List.mem_singleton.1 h with rfl
        exact ⟨tx, rfl, Or.inr rfl, h4⟩
    · rcases List.mem_cons.1 h with rfl | h
      · exact ⟨tx, rfl, Or.inl rfl, h2⟩
      · cases h
    · rcases List.mem_cons.1 h with rfl | h
      · exact ⟨tx, rfl, Or.inl rfl, h2⟩
      · cases h
    · cases h
    · cases h

lemma keywords_stripped {root : Xml} {s : String}
    (h : s ∈ subjKws root ++ hierKws root) : s ≠ "" ∧ pyStrip s = s := by
  rcases List.mem_append.1 h with h | h
  · unfold subjKws at h
    rw [List.mem_flatMap] at h
    obtain ⟨el, -, h⟩ := h
    rw [List.mem_flatMap] at h
    obtain ⟨li, -, h⟩ := h
    obtain ⟨tx, -, rfl, hne⟩ := liKeyword_shape h
    exact ⟨hne, pyStrip_idem tx⟩
  · unfold hierKws at h
    rw [List.mem_flatMap] at h
    obtain ⟨el, -, h⟩ := h
    rw [List.mem_flatMap] at h
    obtain ⟨li, -, h⟩ := h
    obtain ⟨tx, -, hs, hne⟩ := liHierKeywords_shape h
    rcases hs with rfl | rfl
    · exact ⟨hne, pyStrip_idem tx⟩
    · exact ⟨hne, pyStrip_idem _⟩

/-- C6: for every parsed XMP document, the keyword list equals the
spec's rule — the subject-pass results followed by the
hierarchical-pass results, in document-traversal order, de-duplicated by
exact string equality keeping first occurrences — and it is duplicate
free, a sublist (order preserving selection) of that concatenation,
contains exactly the strings of the concatenation, and every element is
a non-empty trimmed string. -/
theorem C6_keyword_pipeline (root : Xml) :
    extract_keywords_from_xmp (some root) =
      specFirstOccurrenceDedup (subjKws root ++ hierKws root) ∧
    (extract_keywords_from_xmp (some root)).Nodup ∧
    (extract_keywords_from_xmp (some root)).Sublist
      (subjKws root ++ hierKws root) ∧
    (∀ s, s ∈ extract_keywords_from_xmp (some root) ↔
      s ∈ subjKws root ++ hierKws root) ∧
    ∀ s ∈ extract_keywords_from_xmp (some root), s ≠ "" ∧ pyStrip s = s := by
  have hx : extract_keywords_from_xmp (some root) =
      dedupeKeepFirst [] (subjKws root ++ hierKws root) := rfl
  refine ⟨by rw [hx, specFirstOccurrenceDedup_eq], ?_, ?_, ?_, ?_⟩
  · rw [hx]
    exact dedupeKeepFirst_nodup _ _
  · rw [hx]
    exact dedupeKeepFirst_sublist _ _
  · intro s
    rw [hx, dedupeKeepFirst_mem]
    simp
  · intro s hs
    rw [hx] at hs
    exact keywords_stripped ((dedupeKeepFirst_mem _ _ _).1 hs).1

/-- Witness for C6 on a subject bag `["Artemis", "Orion", "Artemis"]`. -/
theorem C6_keyword_pipeline_witness :
    extract_keywords_from_xmp (some c6tree) =
      specFirstOccurrenceDedup (subjKws c6tree ++ hierKws c6tree) ∧
    ("Artemis" ≠ "" ∧ pyStrip "Artemis" = "Artemis") :=
  ⟨(C6_keyword_pipeline c6tree).1,
   (C6_keyword_pipeline c6tree).2.2.2.2 "Artemis" (by decide)⟩

/-- C7: for every `li` under a `hierarchicalSubject` element whose
truthy text strips to a non-empty string containing `|` with a
non-empty final segment, the raw keyword collection contains the full
text immediately followed by the leaf (that relative order), both reach
the final keyword list, the leaf appears exactly once, and when the
leaf does not occur earlier in the collection the full text precedes it
in the final list (first occurrences govern positions). -/
theorem C7_hierarchical_leaf (root el li : Xml) (tx : String)
    (hel : el ∈ root.iterList)
    (helt : localname el.tagOf = "hierarchicalSubject")
    (hli : li ∈ el.iterList)
    (hlit : localname li.tagOf = "li")
    (htx : li.textOf = some tx)
    (htxne : tx ≠ "")
    (htne : pyStrip tx ≠ "")
    (hbar : '|' ∈ (pyStrip tx).toList)
    (hleaf : pyStrip (afterLastBar (pyStrip tx)) ≠ "") :
    pyStrip tx ∈ extract_keywords_from_xmp (some root) ∧
    pyStrip (afterLastBar (pyStrip tx)) ∈ extract_keywords_from_xmp (some root) ∧
    (extract_keywords_from_xmp (some root)).count
      (pyStrip (afterLastBar (pyStrip tx))) = 1 ∧
    ∃ A B, subjKws root ++ hierKws root =
        A ++ pyStrip tx :: pyStrip (afterLastBar (pyStrip tx)) :: B ∧
      (pyStrip (afterLastBar (pyStrip tx)) ∉ A →
        (extract_keywords_from_xmp (some root)).indexOf (pyStrip tx) <
          (extract_keywords_from_xmp (some root)).indexOf
            (pyStrip (afterLastBar (pyStrip tx)))) := by
  have hgli : liHierKeywords li =
      [pyStrip tx, pyStrip (afterLastBar (pyStrip tx))] := by
    unfold liHierKeywords
    rw [htx]
    dsimp only
    rw [if_pos htxne, if_pos htne, if_pos (List.elem_iff.mpr hbar),
      if_pos hleaf]
  have hliF : li ∈ el.iterList.filter (fun l2 => localname l2.tagOf == "li") :=
    List.mem_filter.2 ⟨hli, by simp [hlit]⟩
  obtain ⟨L1, L2, hLsplit⟩ := List.append_of_mem hliF
  have helF : el ∈ root.iterList.filter
      (fun e2 => localname e2.tagOf == "hierarchicalSubject") :=
    List.mem_filter.2 ⟨hel, by simp [helt]⟩
  obtain ⟨S1, S2, hSsplit⟩ := List.append_of_mem helF
  have hhier : hierKws root =
      (S1.flatMap (fun e2 =>
          (e2.iterList.filter (fun l2 => localname l2.tagOf == "li")).flatMap
            liHierKeywords) ++ L1.flatMap liHierKeywords) ++
        pyStrip tx :: pyStrip (afterLastBar (pyStrip tx)) ::
          (L2.flatMap liHierKeywords ++ S2.flatMap (fun e2 =>
            (e2.iterList.filter
              (fun l2 => localname l2.tagOf == "li")).flatMap
              liHierKeywords)) := by
    unfold hierKws
    rw [hSsplit, List.flatMap_append, List.flatMap_cons]
    rw [hLsplit, List.flatMap_append, List.flatMap_cons, hgli]
    simp [List.append_assoc]
  refine ?_
  set t := pyStrip tx with hts
  set leaf := pyStrip (afterLastBar (pyStrip tx)) with hleafs
  set A := subjKws root ++
    (S1.flatMap (fun e2 =>
        (e2.iterList.filter (fun l2 => localname l2.tagOf == "li")).flatMap
          liHierKeywords) ++ L1.flatMap liHierKeywords) with hAs
  set B := L2.flatMap liHierKeywords ++ S2.flatMap (fun e2 =>
    (e2.iterList.filter (fun l2 => localname l2.tagOf == "li")).flatMap
      liHierKeywords) with hBs
  have hksplit : subjKws root ++ hierKws root = A ++ t :: leaf :: B := by
    rw [hhier, hAs]
    simp [List.append_assoc]
  have htleaf : t ≠ leaf := by
    intro he
    have hmem : '|' ∈ leaf.toList := by
      rw [← he]
      exact hbar
    exact afterLastBar_no_bar (mem_pyStrip hmem) rfl
  have htmem : t ∈ subjKws root ++ hierKws root := by
    rw [hksplit]
    simp
  have hlmem : leaf ∈ subjKws root ++ hierKws root := by
    rw [hksplit]
    simp
  have hx : extract_keywords_from_xmp (some root) =
      dedupeKeepFirst [] (subjKws root ++ hierKws root) := rfl
  have htout : t ∈ extract_keywords_from_xmp (some root) := by
    rw [hx, dedupeKeepFirst_mem]
    exact ⟨htmem, List.not_mem_nil t⟩
  have hlout : leaf ∈ extract_keywords_from_xmp (some root) := by
    rw [hx, dedupeKeepFirst_mem]
    exact ⟨hlmem, List.not_mem_nil leaf⟩
  refine ⟨htout, hlout, ?_, A, B, hksplit, ?_⟩
  · refine List.count_eq_one_of_mem ?_ hlout
    rw [hx]
    exact dedupeKeepFirst_nodup _ _
  · intro hA
    have hidx : (subjKws root ++ hierKws root).indexOf t <
        (subjKws root ++ hierKws root).indexOf leaf := by
      rw [hksplit, List.indexOf_append_of_not_mem hA,
        List.indexOf_cons_ne _ htleaf, List.indexOf_cons_self]
      by_cases htA : t ∈ A
      · rw [List.indexOf_append_of_mem htA]
        have := List.indexOf_lt_length.2 htA
        omega
      · rw [List.indexOf_append_of_not_mem htA, List.indexOf_cons_self]
        omega
    rw [hx]
    exact dedupeKeepFirst_indexOf_lt [] _ t leaf htleaf (List.not_mem_nil t)
      (List.not_mem_nil leaf) htmem hlmem hidx

/-- Witness for C7 on a `hierarchicalSubject` entry `"Program|Artemis II"`:
both the full path and the leaf `"Artemis II"` are in the keyword list
and the leaf appears exactly once. -/
theorem C7_hierarchical_leaf_witness :
    pyStrip "Program|Artemis II" ∈ extract_keywords_from_xmp (some c7tree) ∧
    pyStrip (afterLastBar (pyStrip "Program|Artemis II")) ∈
      extract_keywords_from_xmp (some c7tree) ∧
    (extract_keywords_from_xmp (some c7tree)).count
      (pyStrip (afterLastBar (pyStrip "Program|Artemis II"))) = 1 := by
  have h := C7_hierarchical_leaf c7tree c7tree
    (Xml.elem "li" (some "Program|Artemis II") []) "Program|Artemis II"
    (by simp [c7tree, Xml.iterList, iterChildren]) (by decide)
    (by simp [c7tree, Xml.iterList, iterChildren]) (by decide) rfl (by decide)
    (by decide) (by decide) (by decide)
  exact ⟨h.1, h.2.1, h.2.2.1⟩

lemma bfind_eq_none_of_no_occ {jpg nd : List Nat} {s : Nat} (hnd : nd ≠ [])
    (h : ∀ i < jpg.length, occursAt jpg nd i = false) :
    bfind jpg nd s = none := by
  cases hb : bfind jpg nd s with
  | none => rfl
  | some j =>
    have hocc := (bfind_some hb).2.1
    have hj := occursAt_length hnd hocc
    have hpos : 0 < nd.length := List.length_pos.2 hnd
    have hf := h j (by omega)
    rw [hf] at hocc
    cases hocc

/-- C8: the XMP locator returns absent when the buffer holds no
occurrence of either opening marker, and also when it holds no
occurrence of either closing marker; and whenever it returns a packet,
the packet is the byte slice from the first occurrence of the opening
marker (`<x:xmpmeta` preferred, else `<xmpmeta` when the former occurs
nowhere) through the end of the first occurrence, at or after that
start, of a closing marker (`</x:xmpmeta>` or `</xmpmeta>`). -/
theorem C8_xmp_locator (jpg : List Nat) :
    ((∀ i < jpg.length, occursAt jpg xmpOpen1 i = false) →
     (∀ i < jpg.length, occursAt jpg xmpOpen2 i = false) →
      find_xmp_packet jpg = none) ∧
    ((∀ i < jpg.length, occursAt jpg xmpClose1 i = false) →
     (∀ i < jpg.length, occursAt jpg xmpClose2 i = false) →
      find_xmp_packet jpg = none) ∧
    (∀ p, find_xmp_packet jpg = some p →
      ∃ s e tag, (tag = xmpClose1 ∨ tag = xmpClose2) ∧
        s ≤ e ∧ occursAt jpg tag e = true ∧
        (∀ j, s ≤ j → j < e → occursAt jpg tag j = false) ∧
        p = bslice jpg s (e + tag.length) ∧
        ((occursAt jpg xmpOpen1 s = true ∧
            ∀ j < s, occursAt jpg xmpOpen1 j = false) ∨
         (occursAt jpg xmpOpen2 s = true ∧
            (∀ j, occursAt jpg xmpOpen1 j = false) ∧
            ∀ j < s, occursAt jpg xmpOpen2 j = false))) := by
  refine ⟨?_, ?_, ?_⟩
  · intro h1 h2
    unfold find_xmp_packet
    rw [bfind_eq_none_of_no_occ (by decide) h1,
      bfind_eq_none_of_no_occ (by decide) h2]
  · intro h1 h2
    unfold find_xmp_packet
    rcases ho1 : bfind jpg xmpOpen1 0 with _ | s1
    · rcases ho2 : bfind jpg xmpOpen2 0 with _ | s2
      · rfl
      · dsimp only
        rw [bfind_eq_none_of_no_occ (by decide) h1,
          bfind_eq_none_of_no_occ (by decide) h2]
    · dsimp only
      rw [bfind_eq_none_of_no_occ (by decide) h1,
        bfind_eq_none_of_no_occ (by decide) h2]
  · intro p hp
    unfold find_xmp_packet at hp
    rcases ho1 : bfind jpg xmpOpen1 0 with _ | s1 <;> rw [ho1] at hp
    · rcases ho2 : bfind jpg xmpOpen2 0 with _ | s2 <;> rw [ho2] at hp
      · cases hp
      · dsimp only at hp
        obtain ⟨-, ho2occ, ho2min⟩ := bfind_some ho2
        have ho1none : ∀ j, occursAt jpg xmpOpen1 j = false := by
          intro j
          exact bfind_none (by decide) ho1 j (Nat.zero_le j)
        rcases hc1 : bfind jpg xmpClose1 s2 with _ | e1 <;> rw [hc1] at hp
        · rcases hc2 : bfind jpg xmpClose2 s2 with _ | e2 <;> rw [hc2] at hp
          · cases hp
          · dsimp only at hp
            obtain ⟨he2, hc2occ, hc2min⟩ := bfind_some hc2
            refine ⟨s2, e2, xmpClose2, Or.inr rfl, he2, hc2occ, hc2min,
              ?_, Or.inr ⟨ho2occ, ho1none,
                fun j hj => ho2min j (Nat.zero_le j) hj⟩⟩
            exact (Option.some.injEq _ _ ▸ hp).symm
        · dsimp only at hp
          obtain ⟨he1, hc1occ, hc1min⟩ := bfind_some hc1
          refine ⟨s2, e1, xmpClose1, Or.inl rfl, he1, hc1occ, hc1min,
            ?_, Or.inr ⟨ho2occ, ho1none,
              fun j hj => ho2min j (Nat.zero_le j) hj⟩⟩
          exact (Option.some.injEq _ _ ▸ hp).symm
    · dsimp only at hp
      obtain ⟨-, ho1occ, ho1min⟩ := bfind_some ho1
      rcases hc1 : bfind jpg xmpClose1 s1 with _ | e1 <;> rw [hc1] at hp
      · rcases hc2 : bfind jpg xmpClose2 s1 with _ | e2 <;> rw [hc2] at hp
        · cases hp
        · dsimp only at hp
          obtain ⟨he2, hc2occ, hc2min⟩ := bfind_some hc2
          refine ⟨s1, e2, xmpClose2, Or.inr rfl, he2, hc2occ, hc2min,
            ?_, Or.inl ⟨ho1occ, fun j hj => ho1min j (Nat.zero_le j) hj⟩⟩
          exact (Option.some.injEq _ _ ▸ hp).symm
      · dsimp only at hp
        obtain ⟨he1, hc1occ, hc1min⟩ := bfind_some hc1
        refine ⟨s1, e1, xmpClose1, Or.inl rfl, he1, hc1occ, hc1min,
          ?_, Or.inl ⟨ho1occ, fun j hj => ho1min j (Nat.zero_le j) hj⟩⟩
        exact (Option.some.injEq _ _ ▸ hp).symm

/-- Witness for C8: a 3-byte buffer holds no XMP markers, so the
locator returns absent. -/
theorem C8_xmp_locator_witness : find_xmp_packet [1, 2, 3] = none :=
  (C8_xmp_locator [1, 2, 3]).1 (by decide) (by decide)

/-- C9: when the located XMP envelope does not parse as XML the keyword
list is `[]`, and the extracted date does not depend on the XML parse
outcome at all (the two sub-extractions are independent). -/
theorem C9_independent_subextractions
    (parseXml parseXml2 : List Nat → Option Xml) (jpg : List Nat) :
    (∀ xmp, find_xmp_packet jpg = some xmp → parseXml xmp = none →
      (parse_datetime_and_keywords parseXml jpg).2 = []) ∧
    (parse_datetime_and_keywords parseXml jpg).1 =
      (parse_datetime_and_keywords parseXml2 jpg).1 := by
  constructor
  · intro xmp hx hparse
    rw [parseDK_snd, hx]
    dsimp only
    split_ifs with h
    · rw [hparse]
      rfl
    · rfl
  · rw [parseDK_fst, parseDK_fst]

/-- Witness for C9: on a buffer holding both a valid APP1/Exif segment
and a malformed XMP envelope, the date decodes while the keywords are
empty. -/
theorem C9_independent_subextractions_witness :
    (parse_datetime_and_keywords parseNone c9buf).2 = [] ∧
    (parse_datetime_and_keywords parseNone c9buf).1 = some dtBytes :=
  ⟨(C9_independent_subextractions parseNone parseNone c9buf).1 c9xmp
      (by decide) rfl,
   by decide⟩
